import Mathlib

/-!
Shallow embedding of `src/dicom/dicom.py` (the `DICOM` class of the
`dicotomy` repository) and proofs about its normalization pipelines.

Modelling conventions:
* Pixel arrays are flat lists of integer samples (row-major).  Every numpy
  operation the code uses is either elementwise or a whole-array reduction,
  so the 2-D shape plays no role in the values produced.
* `float64` arithmetic is modelled exactly: a float value is `Option ℚ`,
  where `some q` is the finite value `q` and `none` is a non-finite value
  (NaN or an infinity).  All finite intermediates in these pipelines are
  ratios of integers scaled by 255, hence exact rationals; the only
  non-finite values arise from division by zero.
* `np.uint8(·)` is a C-style cast: truncation toward zero, defined only on
  finite values whose truncation lies in `[0, 255]`; on NaN, infinities or
  out-of-range values the conversion is undefined behaviour (numpy merely
  emits a `RuntimeWarning`), modelled as `none`.
* File system interaction of `DICOM.__init__` is modelled by an abstract
  description of what the OS reports for the constructor's path argument.
* The reading of a DICOM file is modelled by its outcome: `none` when the
  decoded object has no `pixel_array` attribute, `some a` otherwise.
  Exporting (image/plot writing) is pure I/O and has no bearing on the
  returned values, so it is not modelled.
-/

/-- A `float64` value: `some q` is the finite value `q : ℚ`, `none` is a
non-finite value (NaN or an infinity). -/
abbrev F := Option ℚ

/-- Float division `a / b` as numpy performs it elementwise.  For `b ≠ 0` the
quotient is exact; for `b = 0` the result is non-finite (NaN when `a = 0`,
`±∞` otherwise), collapsed to `none`. -/
def fdiv (a b : ℚ) : F :=
  if b = 0 then none else some (a / b)

/-- Float multiplication by a finite constant (`*= 255.0` in the source).
Multiplying a non-finite value by `255` stays non-finite. -/
def fmul (x : F) (c : ℚ) : F :=
  x.map (fun q => q * c)

/-- `np.uint8(·)` on one float64 sample: C-style conversion truncating toward
zero (for the non-negative values guarded here, truncation equals `⌊·⌋`).
The conversion is defined only when the value is finite and its truncation
fits in `[0, 255]`; otherwise it is undefined behaviour, modelled `none`. -/
def castU8 : F → Option ℕ
  | none => none
  | some q => if 0 ≤ q ∧ q < 256 then some (Int.toNat ⌊q⌋) else none

/-- `np.max` over the samples of a (nonempty) pixel array.  numpy raises on an
empty array; the `[]` case is arbitrary and never reached by the claims. -/
def amax : List ℤ → ℤ
  | [] => 0
  | x :: xs => xs.foldl max x

/-- `np.min` over the samples of a (nonempty) pixel array. -/
def amin : List ℤ → ℤ
  | [] => 0
  | x :: xs => xs.foldl min x

/-- The per-array body of `DICOM.process_static` (src/dicom/dicom.py lines
81–93): cast to float, clamp negatives to `0` (`np.maximum(·, 0)`), divide by
the clamped array's maximum, scale by `255.0`, convert to `uint8`.  Clamping
is done in `ℤ` here; it commutes with the (exact) cast to float. -/
def static_normalize (pixel_array : List ℤ) : List (Option ℕ) :=
  let pixel_array_pos := pixel_array.map (fun x => max x 0)
  let m := amax pixel_array_pos
  pixel_array_pos.map (fun (x : ℤ) => castU8 (fmul (fdiv (x : ℚ) (m : ℚ)) 255))

/-- Lines 143–144 of `process_dynamic`:
`if min_p: hounsfield_min = min_p` immediately followed by the unconditional
`hounsfield_min = np.min(pixel_array)`.  The conditional assignment is dead —
the second assignment always overwrites it — so the caller-supplied bound is
discarded.  The dead value (with Python truthiness: `None` and `0` are falsy)
is kept as an unused `let` to mirror the source. -/
def hounsfield_min (min_p : Option ℤ) (pixel_array : List ℤ) : ℤ :=
  let _dead : Option ℤ := match min_p with
    | some v => if v = 0 then none else some v
    | none => none
  amin pixel_array

/-- Lines 146–147 of `process_dynamic`: same dead-assignment pattern for the
upper bound; the observed array maximum always wins. -/
def hounsfield_max (max_p : Option ℤ) (pixel_array : List ℤ) : ℤ :=
  let _dead : Option ℤ := match max_p with
    | some v => if v = 0 then none else some v
    | none => none
  amax pixel_array

/-- The per-array body of `DICOM.process_dynamic` (src/dicom/dicom.py lines
143–162): resolve the window, compute `hounsfield_range`, clip the integer
samples into the window, then `(pixel_array - hounsfield_min) /
hounsfield_range`, `*= 255`, `np.uint8(·)`.  The subtraction happens on the
integer array; the division promotes to float. -/
def dynamic_normalize (min_p max_p : Option ℤ) (pixel_array : List ℤ) : List (Option ℕ) :=
  let hmin := hounsfield_min min_p pixel_array
  let hmax := hounsfield_max max_p pixel_array
  let hounsfield_range := hmax - hmin
  let clipped_lo := pixel_array.map (fun x => if x < hmin then hmin else x)
  let clipped := clipped_lo.map (fun x => if hmax < x then hmax else x)
  clipped.map (fun x => castU8 (fmul (fdiv ((x - hmin : ℤ) : ℚ) ((hounsfield_range : ℤ) : ℚ)) 255))

/-- One decoded DICOM file: `none` when `pydicom.dcmread`'s result lacks a
`pixel_array` attribute (the "no pixel data" case), else the pixel array. -/
abbrev DicomRecord := Option (List ℤ)

/-- The record loop of `DICOM.process_static` (lines 67–100): read each file
in order; skip it when it has no pixel data (`continue`); otherwise normalize
and append.  Exporting is a side effect and does not affect the result. -/
def process_static : List DicomRecord → List (List (Option ℕ))
  | [] => []
  | none :: rest => process_static rest
  | some a :: rest => static_normalize a :: process_static rest

/-- The record loop of `DICOM.process_dynamic` (lines 138–168), same skip
logic as the static loop, with the caller's `min_p` / `max_p` in scope. -/
def process_dynamic (min_p max_p : Option ℤ) : List DicomRecord → List (List (Option ℕ))
  | [] => []
  | none :: rest => process_dynamic min_p max_p rest
  | some a :: rest => dynamic_normalize min_p max_p a :: process_dynamic min_p max_p rest

/-- What the OS reports for the path handed to `DICOM.__init__`: the path is
missing, or is a regular file of the given name, or is a directory whose
entries (in scan order) are the given names. -/
inductive FsPath where
  | missing : FsPath
  | file : String → FsPath
  | dir : List String → FsPath

/-- The one construction-time error of the class:
`FileNotFoundError("File/Folder does not exist")`. -/
inductive DicomError where
  | notFound : DicomError
deriving DecidableEq

/-- The `Path.glob("*.dcm")` pattern test: a directory entry matches iff its
name ends in `.dcm`. -/
def matches_glob_dcm (name : String) : Bool :=
  ".dcm".data.isSuffixOf name.data

/-- `DICOM.__init__` (src/dicom/dicom.py lines 30–41): raise if the path does
not exist; a single file becomes the one-element record set; a directory is
globbed with `*.dcm` (non-recursive), keeping entries in scan order. -/
def dicom_init : FsPath → Except DicomError (List String)
  | FsPath.missing => Except.error DicomError.notFound
  | FsPath.file n => Except.ok [n]
  | FsPath.dir entries => Except.ok (entries.filter matches_glob_dcm)

/-! Helper lemmas about the `np.max` fold. -/

theorem init_le_foldl_max (as : List ℤ) (a : ℤ) : a ≤ as.foldl max a := by
  induction as generalizing a with
  | nil => exact le_refl a
  | cons b bs ih => exact le_trans (le_max_left a b) (ih (max a b))

theorem mem_le_foldl_max {as : List ℤ} {x : ℤ} (hx : x ∈ as) (a : ℤ) :
    x ≤ as.foldl max a := by
  induction as generalizing a with
  | nil => cases hx
  | cons b bs ih =>
      rcases List.mem_cons.mp hx with h | h
      · subst h
        exact le_trans (le_max_right a x) (init_le_foldl_max bs (max a x))
      · exact ih h (max a b)

theorem foldl_max_mem (as : List ℤ) (a : ℤ) :
    as.foldl max a = a ∨ as.foldl max a ∈ as := by
  induction as generalizing a with
  | nil => exact Or.inl rfl
  | cons b bs ih =>
      rcases ih (max a b) with h | h
      · rcases max_cases a b with ⟨hm, _⟩ | ⟨hm, _⟩
        · exact Or.inl (by rw [List.foldl_cons, h, hm])
        · refine Or.inr (List.mem_cons.mpr (Or.inl ?_))
          rw [List.foldl_cons, h, hm]
      · exact Or.inr (List.mem_cons_of_mem b h)

theorem le_amax {l : List ℤ} {x : ℤ} (hx : x ∈ l) : x ≤ amax l := by
  cases l with
  | nil => cases hx
  | cons a as =>
      rcases List.mem_cons.mp hx with h | h
      · subst h; exact init_le_foldl_max as x
      · exact mem_le_foldl_max h a

theorem amax_mem {l : List ℤ} (h : l ≠ []) : amax l ∈ l := by
  cases l with
  | nil => exact absurd rfl h
  | cons a as =>
      rcases foldl_max_mem as a with h1 | h1
      · exact List.mem_cons.mpr (Or.inl h1)
      · exact List.mem_cons_of_mem a h1

/-- C1: the claim says a caller-supplied `low` is used as `hounsfield_min` and
a caller-supplied `high` as `hounsfield_max`.  On pixel array `[0, 10]` with
`min_p = 5` and `max_p = 50`, the code resolves the window to the observed
extrema `(0, 10)` instead — the conditional assignments are dead — so the
output is identical to the one produced with no overrides at all. -/
theorem C1_override_discarded :
    hounsfield_min (some 5) [0, 10] = 0 ∧ hounsfield_max (some 50) [0, 10] = 10 ∧
    dynamic_normalize (some 5) (some 50) [0, 10] = dynamic_normalize none none [0, 10] :=
  ⟨rfl, rfl, rfl⟩

/-- C2: the claim says an all-negative raw array yields an all-zero 8-bit
array with no division fault.  On `[-3, -1]` the code clamps to `[0, 0]`,
takes the maximum `0`, and divides `0.0 / 0.0`, producing NaN in every cell;
the subsequent `np.uint8` conversion of NaN is undefined behaviour (`none`),
not a defined all-zero output. -/
theorem C2_zero_max_gives_nan :
    static_normalize [-3, -1] = [none, none] := by decide

/-- C3: the claim says a zero-range resolved window yields an all-zero 8-bit
array with no division fault.  The resolved window has `high = low` exactly
for constant arrays; on `[7, 7]` the code computes `hounsfield_range = 0` and
divides `0 / 0`, producing NaN in every cell; the `np.uint8` conversion of
NaN is undefined behaviour (`none`), not a defined all-zero output. -/
theorem C3_zero_range_gives_nan :
    dynamic_normalize none none [7, 7] = [none, none] := by decide

/-- C4: the claim says dynamic normalization fails with `InvalidWindowError`
when the resolved `hounsfield_max` is below `hounsfield_min`.  The code has no
such error path at all: with caller window `(100, 50)` on pixel array
`[0, 10]` it silently discards both bounds, resolves the window to `(0, 10)`,
and returns a normally normalized record instead of failing. -/
theorem C4_no_invalid_window_error :
    process_dynamic (some 100) (some 50) [some [0, 10]] = [[some 0, some 255]] := by
  norm_num [process_dynamic, dynamic_normalize, hounsfield_min, hounsfield_max,
    amin, amax, fdiv, fmul, castU8]
  decide

/-- C6 (counterexample): the claim says static normalization of
`[[0, 50], [100, 200]]` yields `[[0, 64], [128, 255]]`.  It does not: the
`np.uint8` conversion truncates `63.75` to `63` and `127.5` to `127`. -/
theorem C6_counterexample :
    static_normalize [0, 50, 100, 200] ≠ [some 0, some 64, some 128, some 255] := by
  norm_num [static_normalize, amax, fdiv, fmul, castU8]
  decide

/-- C6 (amended): static normalization of the raw array
`[[0, 50], [100, 200]]` (max `200`, modelled row-major) yields exactly
`[[0, 63], [127, 255]]`: samples scale to `0, 63.75, 127.5, 255` and the
8-bit conversion truncates toward zero. -/
theorem C6_truncated_values :
    static_normalize [0, 50, 100, 200] = [some 0, some 63, some 127, some 255] := by
  norm_num [static_normalize, amax, fdiv, fmul, castU8]; decide

/-- C7: construction fails with the not-found error when the path does not
exist; an existing single-file path yields exactly that one entry; a
directory holding `a.dcm`, `b.dcm`, `c.txt` resolves to exactly
`[a.dcm, b.dcm]`. -/
theorem C7_resolver :
    dicom_init FsPath.missing = Except.error DicomError.notFound ∧
    (∀ n, dicom_init (FsPath.file n) = Except.ok [n]) ∧
    dicom_init (FsPath.dir ["a.dcm", "b.dcm", "c.txt"]) = Except.ok ["a.dcm", "b.dcm"] :=
  ⟨rfl, fun _ => rfl, congrArg Except.ok (by decide)⟩

/-- C8: the static pipeline skips exactly the records lacking pixel data and
returns the normalized arrays of the remaining records in record-set order;
in particular, over 3 records where record #2 has no pixel data the result
has length 2 and preserves the order of records #1 and #3. -/
theorem C8_skip_preserves_order :
    (∀ records : List DicomRecord,
        process_static records = (records.filterMap id).map static_normalize) ∧
    (∀ a1 a3 : List ℤ,
        process_static [some a1, none, some a3] =
          [static_normalize a1, static_normalize a3]) := by
  constructor
  · intro records
    induction records with
    | nil => rfl
    | cons r rest ih =>
        cases r with
        | none => simpa [process_static, List.filterMap_cons] using ih
        | some a => simp [process_static, List.filterMap_cons, ih]
  · intro a1 a3; rfl

/-- C9: the record outputs of `process_dynamic` are identical for any two
choices of the caller-supplied `min_p` / `max_p` arguments: both dead
conditional assignments are overwritten by the observed extrema, so the
returned sequence does not depend on the window arguments at all. -/
theorem C9_window_arguments_ignored :
    ∀ (mp Mp mp' Mp' : Option ℤ) (records : List DicomRecord),
      process_dynamic mp Mp records = process_dynamic mp' Mp' records := by
  intro mp Mp mp' Mp' records
  induction records with
  | nil => rfl
  | cons r rest ih =>
      cases r with
      | none => simpa [process_dynamic] using ih
      | some a =>
          simp only [process_dynamic]
          exact congrArg₂ List.cons rfl ih

/-! Elementwise facts about the static normalization arithmetic. -/

theorem castU8_of_le_max {p m : ℤ} (hm : 0 < m) (hp0 : 0 ≤ p) (hpm : p ≤ m) :
    castU8 (fmul (fdiv (p : ℚ) (m : ℚ)) 255) = some (Int.toNat ⌊(p : ℚ) / (m : ℚ) * 255⌋) := by
  have hmq : (0 : ℚ) < (m : ℚ) := by exact_mod_cast hm
  have hpq : (0 : ℚ) ≤ (p : ℚ) := by exact_mod_cast hp0
  have hpmq : (p : ℚ) ≤ (m : ℚ) := by exact_mod_cast hpm
  have h1 : (0 : ℚ) ≤ (p : ℚ) / (m : ℚ) * 255 := by positivity
  have h2 : (p : ℚ) / (m : ℚ) * 255 ≤ 255 := by
    have hd : (p : ℚ) / (m : ℚ) ≤ 1 := (div_le_one hmq).mpr hpmq
    nlinarith
  unfold fdiv fmul castU8
  rw [if_neg hmq.ne']
  simp only [Option.map_some']
  rw [if_pos ⟨h1, lt_of_le_of_lt h2 (by norm_num)⟩]

theorem toNat_floor_le_255 {p m : ℤ} (hm : 0 < m) (_hp0 : 0 ≤ p) (hpm : p ≤ m) :
    Int.toNat ⌊(p : ℚ) / (m : ℚ) * 255⌋ ≤ 255 := by
  have hmq : (0 : ℚ) < (m : ℚ) := by exact_mod_cast hm
  have hpmq : (p : ℚ) ≤ (m : ℚ) := by exact_mod_cast hpm
  have h2 : (p : ℚ) / (m : ℚ) * 255 ≤ 255 := by
    have hd : (p : ℚ) / (m : ℚ) ≤ 1 := (div_le_one hmq).mpr hpmq
    nlinarith
  have h3 : ⌊(p : ℚ) / (m : ℚ) * 255⌋ ≤ 255 := by
    calc ⌊(p : ℚ) / (m : ℚ) * 255⌋ ≤ ⌊(255 : ℚ)⌋ := Int.floor_le_floor h2
    _ = 255 := by norm_num
  omega

theorem toNat_floor_eq_255_iff {p m : ℤ} (hm : 0 < m) (_hp0 : 0 ≤ p) (hpm : p ≤ m) :
    (Int.toNat ⌊(p : ℚ) / (m : ℚ) * 255⌋ = 255 ↔ p = m) := by
  have hmq : (0 : ℚ) < (m : ℚ) := by exact_mod_cast hm
  have hpmq : (p : ℚ) ≤ (m : ℚ) := by exact_mod_cast hpm
  constructor
  · intro h
    have h255 : (255 : ℤ) ≤ ⌊(p : ℚ) / (m : ℚ) * 255⌋ := by omega
    have hq : ((255 : ℤ) : ℚ) ≤ (p : ℚ) / (m : ℚ) * 255 := Int.le_floor.mp h255
    have hone : (1 : ℚ) ≤ (p : ℚ) / (m : ℚ) := by
      push_cast at hq
      nlinarith
    have hmp : (m : ℚ) ≤ (p : ℚ) := (one_le_div hmq).mp hone
    have hle : m ≤ p := by exact_mod_cast hmp
    omega
  · intro h
    subst h
    rw [div_self hmq.ne', one_mul]
    norm_num
    decide

/-- When the clamped maximum is positive, the whole static pipeline computes,
per sample, `⌊(max x 0) / m * 255⌋` as a defined `uint8` value. -/
theorem static_normalize_eq_map (a : List ℤ)
    (h : 0 < amax (a.map (fun x => max x 0))) :
    static_normalize a =
      a.map (fun (x : ℤ) =>
        some (Int.toNat ⌊((max x 0 : ℤ) : ℚ) / ((amax (a.map (fun y => max y 0)) : ℤ) : ℚ) * 255⌋)) := by
  simp only [static_normalize, List.map_map]
  refine List.map_congr_left ?_
  intro x hx
  simp only [Function.comp_apply]
  exact castU8_of_le_max h (le_max_right x 0) (le_amax (List.mem_map_of_mem _ hx))

/-- C10: for every raw array whose clamped maximum `M` is positive, each
sample of the static-normalized output equals `⌊255 * max(x,0) / M⌋` — the
8-bit conversion truncates toward zero (equal to the floor on these
non-negative values) rather than rounding to nearest. -/
theorem C10_floor_semantics (a : List ℤ)
    (h : 0 < amax (a.map (fun x => max x 0))) :
    static_normalize a =
      a.map (fun (x : ℤ) =>
        some (Int.toNat ⌊255 * ((max x 0 : ℤ) : ℚ) / ((amax (a.map (fun y => max y 0)) : ℤ) : ℚ)⌋)) := by
  rw [static_normalize_eq_map a h]
  refine List.map_congr_left ?_
  intro x hx
  have hr : ((max x 0 : ℤ) : ℚ) / ((amax (a.map (fun y => max y 0)) : ℤ) : ℚ) * 255 =
      255 * ((max x 0 : ℤ) : ℚ) / ((amax (a.map (fun y => max y 0)) : ℤ) : ℚ) := by
    ring
  rw [hr]

/-- C10 (witness): on `[2, 4]` the hypothesis holds and the samples come out
as `⌊255·2/4⌋ = 127` and `⌊255·4/4⌋ = 255`. -/
theorem C10_floor_semantics_witness :
    0 < amax (([2, 4] : List ℤ).map (fun x => max x 0)) ∧
    static_normalize [2, 4] =
      ([2, 4] : List ℤ).map (fun (x : ℤ) =>
        some (Int.toNat ⌊255 * ((max x 0 : ℤ) : ℚ) / ((amax (([2, 4] : List ℤ).map (fun y => max y 0)) : ℤ) : ℚ)⌋)) :=
  ⟨by decide, C10_floor_semantics [2, 4] (by decide)⟩

/-- C5 (counterexample): the claim says every raw array with at least one
non-negative sample yields exactly one sample equal to `255`.  On `[5, 5]`
(two non-negative samples) both outputs are `255`, so the count is `2`; and
on `[0]` (a non-negative sample, clamped maximum `0`) the output is the
undefined NaN conversion, not a value in `[0, 255]` at all. -/
theorem C5_counterexample :
    static_normalize [5, 5] = [some 255, some 255] ∧
    (static_normalize [5, 5]).count (some 255) = 2 ∧
    static_normalize [0] = [none] := by
  have h1 : static_normalize [5, 5] = [some 255, some 255] := by
    norm_num [static_normalize, amax, fdiv, fmul, castU8]
    decide
  refine ⟨h1, ?_, by decide⟩
  rw [h1]
  decide

/-- C5 (amended): for every raw array with at least one positive sample,
every output is a defined 8-bit value `≤ 255`, some sample equals `255`, and
a position maps to `255` exactly when its clamped value attains the clamped
maximum — so the maximum always maps to `255`, but `255` occurs once per
position attaining the maximum, not exactly once. -/
theorem C5_max_maps_to_255 (a : List ℤ) (h : ∃ x ∈ a, 0 < x) :
    (∀ y ∈ static_normalize a, ∃ u, y = some u ∧ u ≤ 255) ∧
    some 255 ∈ static_normalize a ∧
    (∀ (i : ℕ) (x : ℤ), a[i]? = some x →
      ((static_normalize a)[i]? = some (some 255) ↔
        max x 0 = amax (a.map (fun y => max y 0)))) := by
  obtain ⟨x0, hx0a, hx0⟩ := h
  have hM : 0 < amax (a.map (fun y => max y 0)) :=
    lt_of_lt_of_le hx0
      (le_trans (le_max_left x0 0) (le_amax (List.mem_map_of_mem _ hx0a)))
  have hmap := static_normalize_eq_map a hM
  refine ⟨?_, ?_, ?_⟩
  · rw [hmap]
    intro y hy
    obtain ⟨x, hxa, rfl⟩ := List.mem_map.mp hy
    exact ⟨_, rfl, toNat_floor_le_255 hM (le_max_right x 0)
      (le_amax (List.mem_map_of_mem _ hxa))⟩
  · rw [hmap]
    have hne : a ≠ [] := by
      intro hnil
      rw [hnil] at hx0a
      cases hx0a
    have hmapne : a.map (fun y => max y 0) ≠ [] := by simpa using hne
    obtain ⟨y, hya, hyM⟩ := List.mem_map.mp (amax_mem hmapne)
    refine List.mem_map.mpr ⟨y, hya, ?_⟩
    rw [hyM]
    have hq : ((amax (a.map (fun y => max y 0)) : ℤ) : ℚ) ≠ 0 := by
      exact_mod_cast hM.ne'
    rw [div_self hq, one_mul]
    norm_num
    decide
  · intro i x hix
    have hxa : x ∈ a := by
      obtain ⟨hlt, hget⟩ := List.getElem?_eq_some.mp hix
      exact hget ▸ List.getElem_mem hlt
    rw [hmap, List.getElem?_map, hix]
    simp only [Option.map_some', Option.some.injEq]
    exact toNat_floor_eq_255_iff hM (le_max_right x 0)
      (le_amax (List.mem_map_of_mem _ hxa))

/-- C5 (witness): `[5, 5]` has a positive sample and its normalization
contains the sample `255`. -/
theorem C5_max_maps_to_255_witness :
    (∃ x ∈ ([5, 5] : List ℤ), 0 < x) ∧ some 255 ∈ static_normalize [5, 5] :=
  ⟨by decide, (C5_max_maps_to_255 [5, 5] (by decide)).2.1⟩
